import Mathlib

/-!
# Verification of the metadata-integration dashboard's data core

Shallow embedding of the dashboard's data-ingestion and classification
subsystem (the latest revision of the application script): the Newick
parser `parseNewickF`, the descriptor classifier `analyzeColumn`, the
record coercion `coerceCell`, the tree colour assignment of `drawTree`,
the scatter-plot hash colouring, the search filter and the load
orchestration `loadDashboard`.

JavaScript numbers are modelled as rationals (`ℚ`): `NaN` and the
infinities are represented by `none` in `Option ℚ`.  The model of the
built-in string-to-number conversions covers the decimal-literal
grammar (sign, digits, fraction, exponent); hexadecimal literals and
the `Infinity` spellings are outside the model.  Strings are compared
by code point, which agrees with JavaScript's code-unit comparison on
the basic multilingual plane.
-/

/-! ## JavaScript number conversions -/

/-- A decimal digit, as in the decimal-literal grammar. -/
def isDigitChar (c : Char) : Bool := '0' ≤ c && c ≤ '9'

/-- Numeric value of a digit character. -/
def digitVal (c : Char) : ℕ := c.toNat - 48

/-- The natural number written by a digit list (most significant first). -/
def digitsToNat (ds : List Char) : ℕ := ds.foldl (fun n c => 10 * n + digitVal c) 0

/-- `10 ^ e` over `ℚ` for integer `e`. -/
def pow10z (e : ℤ) : ℚ := if 0 ≤ e then (10 : ℚ) ^ e.toNat else 1 / (10 : ℚ) ^ (-e).toNat

/-- Longest-prefix parse of a signed decimal literal, the grammar shared by
`parseFloat` and the string-to-number conversion.  Returns the value and the
unconsumed rest, or `none` when no prefix of the input is a literal.  A
dangling exponent marker is left unconsumed, as in JavaScript
(`parseFloat("1e") = 1`). -/
def parseDecPrefix (cs : List Char) : Option (ℚ × List Char) :=
  let sgn : ℚ × List Char :=
    match cs with
    | '-' :: t => (-1, t)
    | '+' :: t => (1, t)
    | _ => (1, cs)
  let ip := sgn.2.takeWhile isDigitChar
  let cs2 := sgn.2.dropWhile isDigitChar
  let fp : List Char × List Char :=
    match cs2 with
    | '.' :: t => (t.takeWhile isDigitChar, t.dropWhile isDigitChar)
    | _ => ([], cs2)
  if ip = [] && fp.1 = [] then none
  else
    let mantissa : ℚ := (digitsToNat ip : ℚ) + (digitsToNat fp.1 : ℚ) / (10 : ℚ) ^ fp.1.length
    let ex : ℤ × List Char :=
      match fp.2 with
      | e :: t =>
        if e = 'e' || e = 'E' then
          let es : ℤ × List Char :=
            match t with
            | '-' :: u => (-1, u)
            | '+' :: u => (1, u)
            | _ => (1, t)
          let ed := es.2.takeWhile isDigitChar
          if ed = [] then (0, fp.2)
          else (es.1 * (digitsToNat ed : ℤ), es.2.dropWhile isDigitChar)
        else (0, fp.2)
      | [] => (0, fp.2)
    some (sgn.1 * mantissa * pow10z ex.1, ex.2)

/-- `Number(s)` restricted to finite results: whitespace-trimmed, the empty
string converts to `0`, otherwise the whole string must be one decimal
literal.  `none` stands for `NaN` (and for the unmodelled non-finite and
hexadecimal cases). -/
def jsNumber (s : String) : Option ℚ :=
  let t := s.trim
  if t = "" then some 0
  else
    match parseDecPrefix t.data with
    | some (q, []) => some q
    | _ => none

/-- `parseFloat(s)`: skip leading whitespace, read the longest decimal-literal
prefix; `none` stands for `NaN`. -/
def jsParseFloat (s : String) : Option ℚ :=
  (parseDecPrefix (s.data.dropWhile Char.isWhitespace)).map (fun r => r.1)

/-- Left-pad a digit string with zeros to width `k`. -/
def padZeros (k : ℕ) (s : String) : String :=
  String.mk (List.replicate (k - s.length) '0') ++ s

/-- Least `k ≤ 40` making `q * 10 ^ k` integral (any rational produced by the
decimal-literal parser has one). -/
def decExponent (q : ℚ) : Option ℕ :=
  (List.range 41).find? (fun k => (q * (10 : ℚ) ^ k).den = 1)

/-- `String(n)` for a finite number: integers print without a point, other
values print as the terminating decimal expansion (which is how every number
produced by the decimal parser prints).  The non-terminating fallback never
arises from parsed input. -/
def ratToJsString (q : ℚ) : String :=
  if q.den = 1 then toString q.num
  else
    let sgn := if q < 0 then "-" else ""
    let a : ℚ := |q|
    match decExponent a with
    | some k =>
      let n := (a * (10 : ℚ) ^ k).num.toNat
      sgn ++ toString (n / 10 ^ k) ++ "." ++ padZeros k (toString (n % 10 ^ k))
    | none => sgn ++ toString a.num.natAbs ++ "/" ++ toString a.den

/-! ## Coerced cell values -/

/-- A descriptor cell after ingest coercion: a number or a string
(`string | number` in the source's data model). -/
inductive Value where
  | num (q : ℚ)
  | str (s : String)
deriving DecidableEq

/-- `String(v)` for a coerced cell value. -/
def jsToString : Value → String
  | .num q => ratToJsString q
  | .str s => s

/-- The classifier's missing-value test, from
`String(v).trim() !== '' && String(v).toUpperCase() !== 'NA'` (negated):
a value is missing when its string form trims to nothing or upper-cases to
`NA`.  A number's string form is never such. -/
def isMissing : Value → Bool
  | .num _ => false
  | .str s => s.trim = "" || s.toUpper = "NA"

/-- The classifier's numeric test `!isNaN(parseFloat(v)) && isFinite(v)`:
for a number both conversions succeed; for a string, `parseFloat` must read a
literal and the whole string must convert to a finite number. -/
def isNumericValue : Value → Bool
  | .num _ => true
  | .str s => (jsParseFloat s).isSome && (jsNumber s).isSome

/-- Unary `+v` on a coerced value: a number is itself, a string goes through
the string-to-number conversion (`none` = `NaN`). -/
def plusVal : Value → Option ℚ
  | .num q => some q
  | .str s => jsNumber s

/-- Distinct elements not yet seen, in first-occurrence order. -/
def uniqueAux {α : Type} [DecidableEq α] (seen : List α) : List α → List α
  | [] => []
  | v :: vs => if v ∈ seen then uniqueAux seen vs else v :: uniqueAux (v :: seen) vs

/-- `[...new Set(arr)]`: distinct elements in first-occurrence order. -/
def uniqueList {α : Type} [DecidableEq α] (l : List α) : List α := uniqueAux [] l

/-- `d3.extent` over finite numbers: the minimum and maximum, `none` on the
empty list. -/
def extentQ : List ℚ → Option (ℚ × ℚ)
  | [] => none
  | x :: xs => some (xs.foldl min x, xs.foldl max x)

/-! ## Records and the descriptor classifier -/

/-- One CSV row after ingest: the reserved identifier columns and the coerced
descriptor map (an association list in column order; an absent key models an
`undefined` property). -/
structure Record where
  accession : Option String
  pmid : Option String
  descriptors : List (String × Value)
deriving DecidableEq

/-- Inferred statistical type of a descriptor column. -/
inductive DType where
  | numerical
  | categorical
deriving DecidableEq

/-- A descriptor's domain: a numeric extent or the ordered category list. -/
inductive Domain where
  | range (lo hi : ℚ)
  | cats (vs : List Value)
deriving DecidableEq

/-- One entry of the descriptor-info table. -/
structure DInfo where
  dtype : DType
  domain : Domain
deriving DecidableEq

/-- The non-missing values of one column across all records, in record order:
`state.allSequences.map(s => s.descriptors[key]).filter(not missing)`. -/
def columnValues (recs : List Record) (key : String) : List Value :=
  ((recs.map (fun r => r.descriptors.lookup key)).filterMap id).filter
    (fun v => !isMissing v)

/-- The sort key order of the default array sort: compare string forms. -/
def keyLe (a b : Value) : Prop := jsToString a ≤ jsToString b

instance : DecidableRel keyLe := fun a b => by
  unfold keyLe; infer_instance

instance : IsTotal Value keyLe := ⟨fun a b => le_total (jsToString a) (jsToString b)⟩

instance : IsTrans Value keyLe := ⟨fun _ _ _ h1 h2 => le_trans h1 h2⟩

/-- `analyzeDescriptors` for one column: filter missing values; empty gives
categorical with empty domain; otherwise numerical iff the numeric fraction
exceeds 0.8 and more than 6 distinct values; numerical domain is the extent of
the converted values, categorical domain the distinct values sorted by string
form.  The comparison `numericCount / values.length > 0.8` is modelled
exactly over `ℚ` as `5 * numericCount > 4 * length`. -/
def analyzeColumn (recs : List Record) (key : String) : DInfo :=
  let values := columnValues recs key
  if values = [] then ⟨.categorical, .cats []⟩
  else
    let numericCount := (values.filter isNumericValue).length
    let uniqueValues := uniqueList values
    if 5 * numericCount > 4 * values.length && decide (uniqueValues.length > 6) then
      match extentQ (values.filterMap plusVal) with
      | some (lo, hi) => ⟨.numerical, .range lo hi⟩
      | none => ⟨.numerical, .range 0 0⟩  -- unreachable: the fraction gate forces a convertible value
    else ⟨.categorical, .cats (List.insertionSort keyLe uniqueValues)⟩

/-! ## The Newick parser

`parseNewick` walks the ORIGINAL string with a shared cursor: the trimmed,
semicolon-stripped copy it computes is passed to `parseSubtree`, which takes
no parameter and closes over the untrimmed input, so the copy is dead.  The
model therefore parses the raw character list.  The `while` loop over
children repeats as long as the cursor is not on `)`; past the end of the
input that test stays true, so an unterminated group never terminates: the
model makes this explicit with fuel, `none` standing for divergence. -/

/-- The parsed tree objects: a leaf-shaped node always carries a name (the
`'internal'` placeholder when empty) and a length (0 when unparsable); a
grouping node carries its children under `branchset` and its name and length
only when truthy. -/
inductive JsTree where
  | leaf (name : String) (length : ℚ)
  | group (branchset : List JsTree) (name : Option String) (length : Option ℚ)

/-- The scan stops of `parseNameAndLength`. -/
def stopChar (c : Char) : Bool := c = ',' || c = ')' || c = ';'

/-- `parseNameAndLength`: scan to the next stop; characters before the first
`:` form the name (trimmed, empty becomes `none`), the rest with every `:`
removed forms the length string, read by `parseFloat(...) || 0`. -/
def parseNAL (cs : List Char) : (Option String × ℚ) × List Char :=
  let scanned := cs.takeWhile (fun c => !stopChar c)
  let rest := cs.dropWhile (fun c => !stopChar c)
  let nm := (String.mk (scanned.takeWhile (fun c => c ≠ ':'))).trim
  let lenStr := String.mk ((scanned.dropWhile (fun c => c ≠ ':')).filter (fun c => c ≠ ':'))
  ((if nm = "" then none else some nm, (jsParseFloat lenStr).getD 0), rest)

/-- A leaf-shaped node: `{name: name || 'internal', length}`. -/
def mkLeafNode (nm : Option String) (len : ℚ) : JsTree :=
  .leaf (nm.getD "internal") len

/-- A grouping node: name and length fields are set only when truthy. -/
def mkGroupNode (children : List JsTree) (nm : Option String) (len : ℚ) : JsTree :=
  .group children nm (if len = 0 then none else some len)

mutual
/-- `parseSubtree`, fuelled: `none` means the call never returns. -/
def parseSub : ℕ → List Char → Option (JsTree × List Char)
  | 0, _ => none
  | f + 1, cs =>
    match cs with
    | '(' :: rest =>
      (parseChildren f rest).bind fun cr =>
        let nl := parseNAL cr.2
        some (mkGroupNode cr.1 nl.1.1 nl.1.2, nl.2)
    | _ =>
      let nl := parseNAL cs
      some (mkLeafNode nl.1.1 nl.1.2, nl.2)

/-- The child loop `while (newick[pos] !== ')')`, fuelled; returns the
children and the rest after consuming the closing `)`. -/
def parseChildren : ℕ → List Char → Option (List JsTree × List Char)
  | 0, _ => none
  | f + 1, cs =>
    if cs.head? = some ')' then some ([], cs.tail)
    else
      (parseSub f cs).bind fun tr =>
        let cs2 := if tr.2.head? = some ',' then tr.2.tail else tr.2
        (parseChildren f cs2).map fun cr => (tr.1 :: cr.1, cr.2)
end

/-- `parseNewick`, fuelled; `none` means the parse never returns. -/
def parseNewickF (fuel : ℕ) (newick : String) : Option JsTree :=
  (parseSub fuel newick.data).map (fun r => r.1)

/-- The branch length field as JavaScript sees it (`d.data.length`):
always present on a leaf-shaped node, optional on a grouping node. -/
def jsLength : JsTree → Option ℚ
  | .leaf _ l => some l
  | .group _ _ l => l

/-- The name field as JavaScript sees it (`d.data.name`). -/
def jsName : JsTree → Option String
  | .leaf n _ => some n
  | .group _ n _ => n

mutual
/-- Every node of a tree (the node itself first, then descendants). -/
def allNodes : JsTree → List JsTree
  | .leaf n l => [.leaf n l]
  | .group cs n l => .group cs n l :: allNodesF cs
def allNodesF : List JsTree → List JsTree
  | [] => []
  | t :: ts => allNodes t ++ allNodesF ts
end

/-! ## Ingest coercion, CSV model and the application state -/

/-- Ingest coercion of one raw cell of a non-reserved column:
`const num = +v; isNaN(num) || v === '' ? v : num`. -/
def coerceCell (v : String) : Value :=
  match jsNumber v with
  | none => .str v
  | some q => if v = "" then .str v else .num q

/-- A parsed CSV table: the header columns and each row as an association
list pairing columns with raw fields. -/
structure CsvData where
  columns : List String
  rows : List (List (String × String))

/-- Model of `d3.csvParse` for plain comma-separated text: split lines,
drop a trailing empty line, the first line is the header, each further line
pairs the header columns with its fields (a short row leaves the later
columns absent).  Quoted fields are outside the model; no claim uses them. -/
def csvParseModel (s : String) : CsvData :=
  let ls := s.splitOn "\n"
  let ls := if ls.getLast? = some "" then ls.dropLast else ls
  match ls with
  | [] => ⟨[], []⟩
  | h :: rest =>
    let cols := h.splitOn ","
    ⟨cols, rest.map (fun line => cols.zip (line.splitOn ","))⟩

/-- The reserved identifier columns. -/
def reservedKeys : List String := ["pmid", "accession"]

/-- One raw CSV row to a record: reserved columns kept raw, every other
column coerced. -/
def coerceRow (row : List (String × String)) : Record :=
  { accession := row.lookup "accession"
    pmid := row.lookup "pmid"
    descriptors := (row.filter (fun kv => !reservedKeys.contains kv.1)).map
      (fun kv => (kv.1, coerceCell kv.2)) }

/-- The mutable application state (the `state` global). -/
structure AppState where
  allSequences : List Record
  sequences : List Record
  papers : List (Option String)
  tree : Option JsTree
  descriptors : List String
  descriptorInfo : String → Option DInfo

/-- `analyzeDescriptors`: recompute the info table entry of every current
descriptor from the FULL record list `allSequences`; entries of other keys
(stale ones from an earlier load) are left as they are. -/
def analyzeDescriptorsState (st : AppState) : AppState :=
  { st with descriptorInfo := fun k =>
      if k ∈ st.descriptors then some (analyzeColumn st.allSequences k)
      else st.descriptorInfo k }

/-- Outcome of a `loadDashboard` call: success, a thrown-and-caught error
with the state as the handler leaves it, or no return at all (the parser's
unterminated-group loop). -/
inductive LoadResult where
  | ok (st : AppState)
  | err (msg : String) (st : AppState)
  | hang

/-- `loadDashboard(newickString, csvString)` up to the point where control
passes to the excluded rendering layer: parse the CSV, the two emptiness
guards, then the state mutations in source order (descriptors, record
coercion, papers, tree parse, descriptor analysis).  The two guards throw
before any mutation; `parseNewick` either returns or never terminates. -/
def loadDashboard (st : AppState) (fuel : ℕ) (newickString csvString : String) :
    LoadResult :=
  let raw := csvParseModel csvString
  if raw.rows = [] then .err "CSV data is empty" st
  else if newickString = "" then .err "Tree data is empty" st
  else
    let descs := raw.columns.filter (fun k => !reservedKeys.contains k)
    let allSeqs := raw.rows.map coerceRow
    let st1 : AppState :=
      { st with
        descriptors := descs
        allSequences := allSeqs
        sequences := allSeqs
        papers := uniqueList (raw.rows.map (fun row => row.lookup "pmid")) }
    match parseNewickF fuel newickString with
    | none => .hang
    | some t => .ok (analyzeDescriptorsState { st1 with tree := some t })

/-! ## The search filter -/

/-- `a.includes(b)`. -/
def jsIncludes (s pat : String) : Bool :=
  pat = "" || (s.splitOn pat).length ≥ 2

/-- The comma-separated, trimmed, upper-cased, non-empty search tokens. -/
def searchTokens (q : String) : List String :=
  ((q.splitOn ",").map (fun t => t.trim.toUpper)).filter (fun t => t ≠ "")

/-- Whether a record matches a token list (accession or pmid substring). -/
def recordMatches (tokens : List String) (r : Record) : Bool :=
  tokens.any (fun tok =>
    jsIncludes (r.accession.getD "").toUpper tok ||
    ((r.pmid.getD "") ≠ "" && jsIncludes (r.pmid.getD "").toUpper tok))

/-- The `searchBox` input handler's effect on the state: an empty token list
restores the full list, otherwise `sequences` becomes the filtered copy of
`allSequences`.  When the token list is non-empty and some record has no
accession, `s.accession.toUpperCase()` throws and the assignment never
happens, leaving the state as it was. -/
def searchHandler (st : AppState) (q : String) : AppState :=
  let tokens := searchTokens q
  if tokens = [] then { st with sequences := st.allSequences }
  else if st.allSequences.any (fun s => s.accession = none) then st
  else { st with sequences := st.allSequences.filter (recordMatches tokens) }

/-! ## Tree colouring (`drawTree`) -/

/-- The `d3.schemeTableau10` palette. -/
def palette : List String :=
  ["#4e79a7", "#f28e2c", "#e15759", "#76b7b2", "#59a14f",
   "#edc949", "#af7aa1", "#ff9da7", "#9c755f", "#bab0ab"]

/-- Number of hierarchy leaves below a node:
`.sum(d => d.branchset ? 0 : 1)` makes a node's value the count of its
descendants without a `branchset` field. -/
def leafCount : JsTree → ℕ
  | .leaf _ _ => 1
  | .group cs _ _ => go cs
where go : List JsTree → ℕ
  | [] => 0
  | t :: ts => leafCount t + go ts

/-- The sort comparator
`(a, b) => (a.value - b.value) || d3.ascending(a.data.length, b.data.length)`:
value difference first; on a tie, lengths compare ascending, any comparison
involving an absent length being a tie (`d3.ascending` yields `NaN`, which
the array sort treats as 0). -/
def childOrd (a b : JsTree) : Ordering :=
  if leafCount a < leafCount b then .lt
  else if leafCount b < leafCount a then .gt
  else
    match jsLength a, jsLength b with
    | some x, some y => if x < y then .lt else if y < x then .gt else .eq
    | _, _ => .eq

/-- Stable insertion of one element into an already-ordered list: it lands
after every element it does not strictly precede, as a stable array sort
places a later element. -/
def insOrd (v : JsTree) : List JsTree → List JsTree
  | [] => [v]
  | x :: xs => if childOrd v x = .lt then v :: x :: xs else x :: insOrd v xs

/-- Stable sort of a child list under `childOrd`. -/
def sortChildList (cs : List JsTree) : List JsTree :=
  cs.foldl (fun acc c => insOrd c acc) []

mutual
/-- `root.sort(...)`: sort every node's children (the comparator reads
values and lengths, which sorting does not change). -/
def sortTree : JsTree → JsTree
  | .leaf n l => .leaf n l
  | .group cs n l => .group (sortChildList (sortForest cs)) n l
def sortForest : List JsTree → List JsTree
  | [] => []
  | t :: ts => sortTree t :: sortForest ts
end

/-- A hierarchy node with a colour annotation (`node.color`); internal nodes
keep the placeholder `""` until the post-order pass sets them. -/
inductive ColorTree where
  | cnode (color : String) (children : List ColorTree)

/-- The colour of a node. -/
def colorOf : ColorTree → String
  | .cnode c _ => c

/-- Whether a node is a leaf of the d3 hierarchy: no `branchset` field, or
an empty one (`d3.hierarchy` attaches children only when the accessor's
array is non-empty). -/
def isHLeaf : JsTree → Bool
  | .leaf _ _ => true
  | .group cs _ _ => cs.isEmpty

/-- The internal key list of an ordinal scale: domain values in registration
order.  A key is an `Option Value` because a record can lack the colour
descriptor (`undefined`). -/
abbrev ScaleDom := List (Option Value)

/-- One lookup of `d3.scaleOrdinal(d3.schemeTableau10)` with the implicit
unknown: a registered key gets the range colour at its index modulo 10, an
unregistered key is appended to the domain and gets the next colour. -/
def scaleLookup (dom : ScaleDom) (k : Option Value) : String × ScaleDom :=
  match dom.findIdx? (fun x => x = k) with
  | some i => (palette.getD (i % 10) "", dom)
  | none => (palette.getD (dom.length % 10) "", dom ++ [k])

/-- The colour of one leaf:
`(seq && colorInfo) ? colorScale(seq.descriptors[colorDesc]) : "#ccc"`,
with `colorScale` the stateful ordinal scale for a categorical descriptor
and the constant `"#ccc"` otherwise. -/
def leafPaint (recs : List Record) (cInfo : Option DInfo) (cDesc : String)
    (nm : Option String) (dom : ScaleDom) : String × ScaleDom :=
  match recs.find? (fun r => r.accession = nm) with
  | none => ("#ccc", dom)
  | some r =>
    match cInfo with
    | none => ("#ccc", dom)
    | some info =>
      if info.dtype = .categorical then scaleLookup dom (r.descriptors.lookup cDesc)
      else ("#ccc", dom)

mutual
/-- The leaf-colouring pass (`root.leaves().forEach(...)`) over the sorted
tree, threading the ordinal scale's domain left to right in leaf order. -/
def paintTree (recs : List Record) (cInfo : Option DInfo) (cDesc : String) :
    JsTree → ScaleDom → ColorTree × ScaleDom
  | .leaf n _, dom =>
    let r := leafPaint recs cInfo cDesc (some n) dom
    (.cnode r.1 [], r.2)
  | .group [] n _, dom =>
    let r := leafPaint recs cInfo cDesc n dom
    (.cnode r.1 [], r.2)
  | .group (c0 :: cs) _ _, dom =>
    let r0 := paintTree recs cInfo cDesc c0 dom
    let rs := paintForest recs cInfo cDesc cs r0.2
    (.cnode "" (r0.1 :: rs.1), rs.2)
def paintForest (recs : List Record) (cInfo : Option DInfo) (cDesc : String) :
    List JsTree → ScaleDom → List ColorTree × ScaleDom
  | [], dom => ([], dom)
  | t :: ts, dom =>
    let r := paintTree recs cInfo cDesc t dom
    let rs := paintForest recs cInfo cDesc ts r.2
    (r.1 :: rs.1, rs.2)
end

mutual
/-- The post-order pass (`root.eachAfter`): a node with children takes their
shared colour when every child's colour is identical to the first child's,
and `"#ccc"` otherwise; a childless node keeps its leaf colour. -/
def aggTree : ColorTree → ColorTree
  | .cnode c [] => .cnode c []
  | .cnode _ (c0 :: cs) =>
    let a0 := aggTree c0
    let rest := aggForest cs
    .cnode (if rest.all (fun t => colorOf t = colorOf a0) then colorOf a0 else "#ccc")
      (a0 :: rest)
def aggForest : List ColorTree → List ColorTree
  | [] => []
  | t :: ts => aggTree t :: aggForest ts
end

/-- The category list of a domain (empty for a numeric extent). -/
def domCats : Domain → List Value
  | .range _ _ => []
  | .cats vs => vs

/-- The whole colour assignment of `drawTree` for a chosen colour descriptor:
build the sorted hierarchy, set the ordinal scale's domain from the
descriptor info when it is categorical, colour the leaves in order, then
aggregate bottom-up. -/
def drawTreeColors (recs : List Record) (cInfo : Option DInfo) (cDesc : String)
    (t : JsTree) : ColorTree :=
  let dom0 : ScaleDom :=
    match cInfo with
    | some info => if info.dtype = .categorical then (domCats info.domain).map some else []
    | none => []
  aggTree (paintTree recs cInfo cDesc (sortTree t) dom0).1

mutual
/-- The colours of a coloured tree's leaves, in hierarchy order. -/
def leavesColors : ColorTree → List String
  | .cnode c [] => [c]
  | .cnode _ (c0 :: cs) => leavesColorsF (c0 :: cs)
def leavesColorsF : List ColorTree → List String
  | [] => []
  | t :: ts => leavesColors t ++ leavesColorsF ts
end

/-! ## The scatter-plot hash colouring -/

/-- Truthiness of a descriptor value as `hash` tests it: an absent value,
the number 0 and the empty string are falsy. -/
def jsTruthyVal : Option Value → Bool
  | none => false
  | some (.num q) => q ≠ 0
  | some (.str s) => s ≠ ""

/-- Sum of the character codes of a string (`charCodeAt` summed; code
points, which agree with code units off the astral planes). -/
def charSum (s : String) : ℕ := (s.data.map Char.toNat).sum

/-- The `hash` helper: 0 for a falsy value, otherwise the character-code sum
of the value's string form. -/
def hashVal : Option Value → ℕ
  | none => 0
  | some v => if jsTruthyVal (some v) then charSum (jsToString v) else 0

/-- The scatter plot's fill colour:
`d3.schemeTableau10[hash(d.descriptors[colourDesc]) % 10]`. -/
def scatterFill (v : Option Value) : String :=
  palette.getD (hashVal v % 10) ""

/-! ## Concrete fixtures shared by the theorems -/

/-- A record with a single descriptor column `c` holding a raw string. -/
def oneCell (s : String) : Record := ⟨none, none, [("c", Value.str s)]⟩

/-- A record with a single descriptor column `c` holding a number. -/
def oneCellNum (q : ℚ) : Record := ⟨none, none, [("c", Value.num q)]⟩

/-- A previously loaded state with data in every field, used to exercise the
failure paths of `loadDashboard`. -/
def demoState : AppState :=
  { allSequences := [oneCell "x"]
    sequences := [oneCell "x"]
    papers := [some "p1"]
    tree := some (.leaf "A" 0)
    descriptors := ["c"]
    descriptorInfo := fun _ => none }

/-- The branch-length shape of a parsed node: a leaf-shaped node carries
length 0, a grouping node omits the field. -/
def lengthSpec : JsTree → Prop
  | .leaf _ l => l = 0
  | .group _ _ lo => lo = none

/-- C2's fixtures: a record joining leaf `A` with colour value `"x"`, one
joining leaf `B` with the missing value `"NA"`, one joining `B` with `"x"`,
the tree `(A,B);` and the categorical info the classifier derives. -/
def recX : Record := ⟨some "A", none, [("c", Value.str "x")]⟩

/-- The record joining leaf `B` whose colour value is missing. -/
def recNA : Record := ⟨some "B", none, [("c", Value.str "NA")]⟩

/-- A record joining leaf `B` with the shared colour value `"x"`. -/
def recX2 : Record := ⟨some "B", none, [("c", Value.str "x")]⟩

/-- The parsed form of `(A,B);`. -/
def treeAB : JsTree := .group [.leaf "A" 0, .leaf "B" 0] none none

/-- The categorical descriptor info with domain `["x"]`. -/
def infoX : DInfo := ⟨.categorical, .cats [.str "x"]⟩

/-! ## Helper lemmas -/

theorem foldl_min_le_base (xs : List ℚ) (x : ℚ) : xs.foldl min x ≤ x := by
  induction xs generalizing x with
  | nil => simp
  | cons y ys ih =>
    simpa using le_trans (ih (min x y)) (min_le_left x y)

theorem foldl_min_mem (xs : List ℚ) (x : ℚ) : xs.foldl min x ∈ x :: xs := by
  induction xs generalizing x with
  | nil => simp
  | cons y ys ih =>
    simp only [List.foldl_cons]
    rcases List.mem_cons.mp (ih (min x y)) with h1 | h1
    · rw [h1]
      rcases min_choice x y with hm | hm <;> rw [hm] <;> simp
    · simp [h1]

theorem foldl_min_le_mem (xs : List ℚ) (x y : ℚ) (hy : y ∈ x :: xs) :
    xs.foldl min x ≤ y := by
  induction xs generalizing x with
  | nil => simp at hy; simp [hy]
  | cons z zs ih =>
    simp only [List.foldl_cons]
    rcases List.mem_cons.mp hy with h1 | h1
    · exact le_trans (le_trans (foldl_min_le_base zs (min x z)) (min_le_left x z)) (le_of_eq h1.symm)
    · rcases List.mem_cons.mp h1 with h2 | h2
      · exact le_trans (le_trans (foldl_min_le_base zs (min x z)) (min_le_right x z)) (le_of_eq h2.symm)
      · exact ih (min x z) (List.mem_cons_of_mem _ h2)

theorem foldl_max_ge_base (xs : List ℚ) (x : ℚ) : x ≤ xs.foldl max x := by
  induction xs generalizing x with
  | nil => simp
  | cons y ys ih =>
    simpa using le_trans (le_max_left x y) (ih (max x y))

theorem foldl_max_mem (xs : List ℚ) (x : ℚ) : xs.foldl max x ∈ x :: xs := by
  induction xs generalizing x with
  | nil => simp
  | cons y ys ih =>
    simp only [List.foldl_cons]
    rcases List.mem_cons.mp (ih (max x y)) with h1 | h1
    · rw [h1]
      rcases max_choice x y with hm | hm <;> rw [hm] <;> simp
    · simp [h1]

theorem foldl_max_ge_mem (xs : List ℚ) (x y : ℚ) (hy : y ∈ x :: xs) :
    y ≤ xs.foldl max x := by
  induction xs generalizing x with
  | nil => simp at hy; simp [hy]
  | cons z zs ih =>
    simp only [List.foldl_cons]
    rcases List.mem_cons.mp hy with h1 | h1
    · exact le_trans (le_of_eq h1) (le_trans (le_max_left x z) (foldl_max_ge_base zs (max x z)))
    · rcases List.mem_cons.mp h1 with h2 | h2
      · exact le_trans (le_of_eq h2) (le_trans (le_max_right x z) (foldl_max_ge_base zs (max x z)))
      · exact ih (max x z) (List.mem_cons_of_mem _ h2)

theorem mem_uniqueAux {α : Type} [DecidableEq α] (a : α) (l seen : List α) :
    a ∈ uniqueAux seen l ↔ a ∈ l ∧ a ∉ seen := by
  induction l generalizing seen with
  | nil => simp [uniqueAux]
  | cons v vs ih =>
    rw [uniqueAux]
    by_cases hs : v ∈ seen
    · rw [if_pos hs, ih]
      constructor
      · intro ⟨h1, h2⟩; exact ⟨List.mem_cons_of_mem _ h1, h2⟩
      · rintro ⟨h1, h2⟩
        rcases List.mem_cons.mp h1 with h3 | h3
        · exact absurd (h3 ▸ hs) h2
        · exact ⟨h3, h2⟩
    · rw [if_neg hs]
      by_cases hav : a = v
      · subst hav; simp [hs]
      · simp only [List.mem_cons, hav, false_or]
        rw [ih]
        simp [hav]

theorem mem_uniqueList {α : Type} [DecidableEq α] (a : α) (l : List α) :
    a ∈ uniqueList l ↔ a ∈ l := by
  rw [uniqueList, mem_uniqueAux]
  simp

theorem nodup_uniqueAux {α : Type} [DecidableEq α] (l seen : List α) :
    (uniqueAux seen l).Nodup := by
  induction l generalizing seen with
  | nil => simp [uniqueAux]
  | cons v vs ih =>
    rw [uniqueAux]
    by_cases hs : v ∈ seen
    · rw [if_pos hs]; exact ih seen
    · rw [if_neg hs]
      refine List.nodup_cons.mpr ⟨fun hmem => ?_, ih (v :: seen)⟩
      have := (mem_uniqueAux v vs (v :: seen)).mp hmem
      exact this.2 (List.mem_cons_self v seen)

theorem nodup_uniqueList {α : Type} [DecidableEq α] (l : List α) :
    (uniqueList l).Nodup := nodup_uniqueAux l []

/-- The threshold comparison `numericCount / length > 0.8`, carried out over
`ℚ`, matches the integer comparison the model uses. -/
theorem frac_gt_iff (a b : ℕ) (hb : 0 < b) :
    (4 * b < 5 * a) ↔ ((0.8 : ℚ) < (a : ℚ) / (b : ℚ)) := by
  have hbq : (0 : ℚ) < (b : ℚ) := by exact_mod_cast hb
  rw [show (0.8 : ℚ) = 4 / 5 by norm_num, div_lt_div_iff₀ (by norm_num) hbq]
  constructor
  · intro h
    have h2 : ((4 * b : ℕ) : ℚ) < ((5 * a : ℕ) : ℚ) := by exact_mod_cast h
    push_cast at h2
    linarith
  · intro h
    have h2 : ((4 * b : ℕ) : ℚ) < ((5 * a : ℕ) : ℚ) := by push_cast; linarith
    exact_mod_cast h2

/-- C1: a descriptor column classifies numerical exactly when its non-missing
values are non-empty, the fraction of them passing the numeric test is
strictly above 0.8, and the count of distinct values is strictly above 6;
seven distinct numeric strings classify numerical, six classify categorical,
and a column with no non-missing values is categorical with empty domain. -/
theorem c1_classification_rule :
    (∀ (recs : List Record) (key : String),
        (analyzeColumn recs key).dtype = DType.numerical ↔
          (columnValues recs key ≠ [] ∧
           (0.8 : ℚ) < (((columnValues recs key).filter isNumericValue).length : ℚ) /
               ((columnValues recs key).length : ℚ) ∧
           (uniqueList (columnValues recs key)).length > 6))
    ∧ (analyzeColumn (["1", "2", "3", "4", "5", "6", "7"].map oneCell) "c").dtype
        = DType.numerical
    ∧ (analyzeColumn (["1", "2", "3", "4", "5", "6"].map oneCell) "c").dtype
        = DType.categorical
    ∧ analyzeColumn [oneCell "NA"] "c" = ⟨DType.categorical, Domain.cats []⟩ := by
  refine ⟨fun recs key => ?_, by with_unfolding_all decide,
    by with_unfolding_all decide, by with_unfolding_all decide⟩
  unfold analyzeColumn
  set values := columnValues recs key with hv
  by_cases hnil : values = []
  · simp [hnil]
  · simp only [if_neg hnil]
    have hlen : 0 < values.length := List.length_pos.mpr hnil
    rw [← frac_gt_iff _ _ hlen]
    by_cases hc : (4 * values.length < 5 * (values.filter isNumericValue).length) ∧
        (uniqueList values).length > 6
    · rcases hc with ⟨h1, h2⟩
      have hcond : (decide (5 * (values.filter isNumericValue).length > 4 * values.length) &&
          decide ((uniqueList values).length > 6)) = true := by
        simp only [Bool.and_eq_true, decide_eq_true_eq]
        exact ⟨h1, h2⟩
      rw [if_pos hcond]
      constructor
      · intro _; exact ⟨hnil, h1, h2⟩
      · intro _
        split <;> rfl
    · have hcond : (decide (5 * (values.filter isNumericValue).length > 4 * values.length) &&
          decide ((uniqueList values).length > 6)) = false := by
        rw [Bool.and_eq_false_iff]
        by_cases h1 : 4 * values.length < 5 * (values.filter isNumericValue).length
        · have h2 : ¬ (uniqueList values).length > 6 := fun h2 => hc ⟨h1, h2⟩
          right; simp only [decide_eq_false_iff_not]; exact h2
        · left; simp only [decide_eq_false_iff_not]; exact h1
      rw [if_neg (by simp [hcond])]
      simp only [DInfo.dtype]
      constructor
      · intro h; cases h
      · intro h; exact absurd ⟨h.2.1, h.2.2⟩ hc

theorem extentQ_spec (l : List ℚ) (lo hi : ℚ) (h : extentQ l = some (lo, hi)) :
    lo ∈ l ∧ hi ∈ l ∧ ∀ q ∈ l, lo ≤ q ∧ q ≤ hi := by
  cases l with
  | nil => simp [extentQ] at h
  | cons x xs =>
    simp only [extentQ, Option.some_inj, Prod.mk.injEq] at h
    rcases h with ⟨h1, h2⟩
    subst h1; subst h2
    exact ⟨foldl_min_mem xs x, foldl_max_mem xs x,
      fun q hq => ⟨foldl_min_le_mem xs x q hq, foldl_max_ge_mem xs x q hq⟩⟩

theorem plusVal_isSome_of_numeric (v : Value) (h : isNumericValue v = true) :
    (plusVal v).isSome = true := by
  cases v with
  | num q => rfl
  | str s =>
    simp only [isNumericValue, Bool.and_eq_true] at h
    simpa [plusVal] using h.2

/-- C4: the domain of a column classified numerical is the pair of the
minimum and maximum of the converted values of the missing-filtered value
list (the very list the numeric fraction is computed over): both bounds are
attained by converted values and bound every converted value.  On the column
`["3", "NA", "1", "", 5]` the numeric-domain computation yields `[1, 5]`. -/
theorem c4_numerical_domain :
    (∀ (recs : List Record) (key : String) (lo hi : ℚ),
        analyzeColumn recs key = ⟨DType.numerical, Domain.range lo hi⟩ →
          (lo ∈ (columnValues recs key).filterMap plusVal ∧
           hi ∈ (columnValues recs key).filterMap plusVal ∧
           ∀ q ∈ (columnValues recs key).filterMap plusVal, lo ≤ q ∧ q ≤ hi))
    ∧ extentQ ((columnValues
        [oneCell "3", oneCell "NA", oneCell "1", oneCell "", oneCellNum 5] "c").filterMap
          plusVal) = some (1, 5) := by
  refine ⟨fun recs key lo hi h => ?_, by with_unfolding_all decide⟩
  unfold analyzeColumn at h
  set values := columnValues recs key with hv
  by_cases hnil : values = []
  · rw [if_pos hnil] at h
    cases h
  · rw [if_neg hnil] at h
    by_cases hcond : (decide (5 * (values.filter isNumericValue).length > 4 * values.length) &&
        decide ((uniqueList values).length > 6)) = true
    · rw [if_pos hcond] at h
      have hnc : 0 < (values.filter isNumericValue).length := by
        have h1 := (Bool.and_eq_true _ _).mp hcond |>.1
        rw [decide_eq_true_eq] at h1
        by_contra hz
        push_neg at hz
        omega
      rcases List.exists_mem_of_length_pos hnc with ⟨v, hvmem⟩
      have hvv := List.mem_filter.mp hvmem
      rcases Option.isSome_iff_exists.mp (plusVal_isSome_of_numeric v hvv.2) with ⟨q, hq⟩
      have hqmem : q ∈ values.filterMap plusVal :=
        List.mem_filterMap.mpr ⟨v, hvv.1, hq⟩
      have hne : values.filterMap plusVal ≠ [] := List.ne_nil_of_mem hqmem
      cases hext : extentQ (values.filterMap plusVal) with
      | none =>
        cases hl : values.filterMap plusVal with
        | nil => exact absurd hl hne
        | cons a as => rw [hl] at hext; simp [extentQ] at hext
      | some p =>
        rw [hext] at h
        cases p with
        | mk a b =>
          cases h
          exact extentQ_spec _ _ _ hext
    · rw [if_neg hcond] at h
      cases h

/-- C5: a categorical domain is the distinct non-missing values ordered by
the default lexicographic string comparison: sorted under `keyLe` (string
form comparison), containing exactly the observed values, without
duplicates; the numeric-looking codes 2 and 10 order as "10" before "2". -/
theorem c5_categorical_domain :
    (∀ (recs : List Record) (key : String) (vs : List Value),
        analyzeColumn recs key = ⟨DType.categorical, Domain.cats vs⟩ →
          (List.Sorted keyLe vs ∧ (∀ v, v ∈ vs ↔ v ∈ columnValues recs key) ∧ vs.Nodup))
    ∧ analyzeColumn [oneCellNum 2, oneCellNum 10] "c" =
        ⟨DType.categorical, Domain.cats [Value.num 10, Value.num 2]⟩ := by
  refine ⟨fun recs key vs h => ?_, by with_unfolding_all decide⟩
  unfold analyzeColumn at h
  set values := columnValues recs key with hv
  by_cases hnil : values = []
  · rw [if_pos hnil] at h
    cases h
    refine ⟨List.sorted_nil, fun v => ?_, List.nodup_nil⟩
    rw [hnil]
  · rw [if_neg hnil] at h
    by_cases hcond : (decide (5 * (values.filter isNumericValue).length > 4 * values.length) &&
        decide ((uniqueList values).length > 6)) = true
    · rw [if_pos hcond] at h
      cases hext : extentQ (values.filterMap plusVal) with
      | none => rw [hext] at h; cases h
      | some p => rw [hext] at h; cases p; cases h
    · rw [if_neg hcond] at h
      cases h
      refine ⟨List.sorted_insertionSort keyLe (uniqueList values), fun v => ?_, ?_⟩
      · rw [List.mem_insertionSort, mem_uniqueList]
      · exact ((List.perm_insertionSort keyLe (uniqueList values)).nodup_iff).mpr
          (nodup_uniqueList values)

/-- C6: the search handler replaces only the filtered `sequences` list; the
descriptor list, the full record list and the descriptor-info table (hence
every inferred type and domain) are untouched, and reclassification over the
full list would give the same table. -/
theorem c6_filter_preserves_classification :
    ∀ (st : AppState) (q : String),
      (searchHandler st q).descriptorInfo = st.descriptorInfo ∧
      (searchHandler st q).allSequences = st.allSequences ∧
      (searchHandler st q).descriptors = st.descriptors ∧
      ∀ key, analyzeColumn (searchHandler st q).allSequences key =
        analyzeColumn st.allSequences key := by
  intro st q
  unfold searchHandler
  by_cases h1 : searchTokens q = []
  · rw [if_pos h1]
    exact ⟨rfl, rfl, rfl, fun _ => rfl⟩
  · rw [if_neg h1]
    by_cases h2 : st.allSequences.any (fun s => s.accession = none)
    · rw [if_pos h2]
      exact ⟨rfl, rfl, rfl, fun _ => rfl⟩
    · rw [if_neg h2]
      exact ⟨rfl, rfl, rfl, fun _ => rfl⟩

/-- C7: whenever `loadDashboard` fails (empty CSV or empty tree text — the
only throwing checks of the modelled data path, both placed before any state
mutation), the state it leaves behind is exactly the prior state; concretely,
reloading `demoState` with a non-empty CSV but an empty tree string errors
and preserves `demoState`. -/
theorem c7_failed_load_preserves_state :
    (∀ (st : AppState) (fuel : ℕ) (n c msg : String) (st2 : AppState),
        loadDashboard st fuel n c = LoadResult.err msg st2 → st2 = st)
    ∧ loadDashboard demoState 3 "" "accession,pmid,c\nA,p1,1" =
        LoadResult.err "Tree data is empty" demoState := by
  constructor
  · intro st fuel n c msg st2 h
    unfold loadDashboard at h
    by_cases h1 : (csvParseModel c).rows = []
    · rw [if_pos h1] at h
      cases h
      rfl
    · rw [if_neg h1] at h
      by_cases h2 : n = ""
      · rw [if_pos h2] at h
        cases h
        rfl
      · rw [if_neg h2] at h
        cases h3 : parseNewickF fuel n with
        | none => rw [h3] at h; cases h
        | some t => rw [h3] at h; cases h
  · with_unfolding_all rfl

/-- C9 counterexample: the cell `"3.0"` is stored as the number 3 although
the stored number's string form is `"3"`, not the original string — the
claimed round-trip condition does not gate the coercion. -/
theorem c9_no_roundtrip_check :
    coerceCell "3.0" = Value.num 3 ∧ jsToString (Value.num 3) = "3" ∧
      ("3" : String) ≠ "3.0" := by
  with_unfolding_all decide

/-- C9 (amended): a non-empty cell whose string-to-number conversion succeeds
is stored as that number (no round-trip or finiteness-of-representation
check); a cell whose conversion is `NaN` keeps its original string; the
empty string is kept as the string `""` — not coerced to the number 0 — and
`""` and the case variants of `NA` are kept as ordinary strings at ingest,
recognised as missing only by the downstream missing-value filter. -/
theorem c9_coercion_amended :
    (∀ (v : String) (q : ℚ), jsNumber v = some q → v ≠ "" → coerceCell v = Value.num q)
    ∧ (∀ v : String, jsNumber v = none → coerceCell v = Value.str v)
    ∧ (coerceCell "" = Value.str "" ∧ coerceCell "" ≠ Value.num 0)
    ∧ (coerceCell "NA" = Value.str "NA" ∧ coerceCell "na" = Value.str "na")
    ∧ (isMissing (Value.str "") = true ∧ isMissing (Value.str "NA") = true ∧
        isMissing (Value.str "na") = true) := by
  refine ⟨fun v q h hne => ?_, fun v h => ?_,
    by with_unfolding_all decide, by with_unfolding_all decide,
    by with_unfolding_all decide⟩
  · unfold coerceCell
    rw [h]
    dsimp only
    rw [if_neg hne]
  · unfold coerceCell
    rw [h]

/-- C10: the scatter fill colour depends on a value only through its
character-code-sum hash, so values whose string forms are permutations of
one another get the identical fill (shown both in general and for the pair
`"ab"`/`"ba"`), and a falsy value (absent, the empty string, the number 0)
hashes to 0 and always gets the palette's colour at index 0. -/
theorem c10_hash_colour :
    (∀ v w : Option Value, hashVal v = hashVal w → scatterFill v = scatterFill w)
    ∧ (∀ s t : String, s.data.Perm t.data →
        scatterFill (some (.str s)) = scatterFill (some (.str t)))
    ∧ (∀ v : Option Value, jsTruthyVal v = false →
        hashVal v = 0 ∧ scatterFill v = palette.getD 0 "")
    ∧ scatterFill (some (.str "ab")) = scatterFill (some (.str "ba"))
    ∧ scatterFill (some (.str "")) = palette.getD 0 "" := by
  have hcong : ∀ v w : Option Value, hashVal v = hashVal w →
      scatterFill v = scatterFill w := by
    intro v w h
    unfold scatterFill
    rw [h]
  have hfalsy : ∀ v : Option Value, jsTruthyVal v = false →
      hashVal v = 0 ∧ scatterFill v = palette.getD 0 "" := by
    intro v h
    have h0 : hashVal v = 0 := by
      cases v with
      | none => rfl
      | some val =>
        simp [hashVal, h]
    exact ⟨h0, by unfold scatterFill; rw [h0]⟩
  refine ⟨hcong, fun s t hperm => ?_, hfalsy,
    by with_unfolding_all decide, by with_unfolding_all decide⟩
  apply hcong
  obtain ⟨ls⟩ := s
  obtain ⟨lt⟩ := t
  have hsum : charSum (String.mk ls) = charSum (String.mk lt) :=
    (hperm.map Char.toNat).sum_eq
  by_cases hnil : ls = []
  · subst hnil
    have : lt = [] := List.Perm.eq_nil hperm.symm
    subst this
    rfl
  · have hnil2 : lt ≠ [] := by
      intro h
      subst h
      exact hnil (List.Perm.eq_nil hperm)
    have hs : String.mk ls ≠ "" := by
      intro h
      exact hnil (by simpa using congrArg String.data h)
    have ht : String.mk lt ≠ "" := by
      intro h
      exact hnil2 (by simpa using congrArg String.data h)
    simp only [hashVal, jsTruthyVal, jsToString]
    rw [if_pos (by simpa using hs), if_pos (by simpa using ht)]
    exact hsum

/-- At the end of the input the child loop's test `newick[pos] !== ')'` stays
true and each iteration consumes nothing: the loop exhausts any fuel. -/
theorem parseChildren_nil (f : ℕ) : parseChildren f [] = none := by
  induction f with
  | zero => rfl
  | succ g ih =>
    rw [parseChildren]
    simp only [List.head?_nil, reduceCtorEq, if_false]
    cases g with
    | zero => rfl
    | succ h =>
      rw [parseSub]
      have hnal : (parseNAL []).2 = ([] : List Char) := rfl
      simp only [hnal, Option.bind, List.head?_nil, reduceCtorEq, if_false, ih,
        Option.map_none']
      exact fun rest h => List.noConfusion h

/-- After the leaf `A` is consumed the loop is at the end of input and
diverges, whatever fuel remains. -/
theorem parseChildren_oneA (f : ℕ) : parseChildren f ['A'] = none := by
  cases f with
  | zero => rfl
  | succ g =>
    rw [parseChildren]
    rw [if_neg (by decide)]
    cases g with
    | zero => rfl
    | succ h =>
      rw [parseSub]
      have hnal : (parseNAL ['A']).2 = ([] : List Char) := rfl
      simp only [hnal, Option.bind, List.head?_nil, reduceCtorEq, if_false,
        parseChildren_nil, Option.map_none']
      exact fun rest h => by simp at h

/-- C3: `parseNewick` does not satisfy the terminate-or-throw contract: on
the unterminated group `"(A"` the child loop never returns (no amount of
fuel makes the model yield a result), and on the empty string the parser
returns the placeholder node `{name: "internal", length: 0}` instead of
failing (the empty-input error is raised by the orchestration layer before
the parser runs, not by the parser). -/
theorem c3_parse_divergence_and_empty :
    (∀ fuel : ℕ, parseNewickF fuel "(A" = none)
    ∧ parseNewickF 2 "" = some (JsTree.leaf "internal" 0) := by
  constructor
  · intro fuel
    cases fuel with
    | zero => rfl
    | succ f =>
      show (parseSub (f + 1) ['(', 'A']).map (fun r => r.1) = none
      rw [parseSub]
      simp only [parseChildren_oneA, Option.bind, Option.map_none']
  · with_unfolding_all rfl

theorem parseNAL_no_colon (cs : List Char) (h : (':' : Char) ∉ cs) :
    (parseNAL cs).1.2 = 0 := by
  unfold parseNAL
  have hscan : (':' : Char) ∉ cs.takeWhile (fun c => !stopChar c) :=
    fun hmem => h ((List.takeWhile_sublist _).subset hmem)
  have hdrop : (cs.takeWhile (fun c => !stopChar c)).dropWhile (fun c => c ≠ ':') = [] := by
    rw [List.dropWhile_eq_nil_iff]
    intro x hx
    simp only [ne_eq, decide_not]
    by_cases hxc : x = ':'
    · exact absurd (hxc ▸ hx) hscan
    · simp [hxc]
  simp only [hdrop, List.filter_nil]
  rfl

theorem parseNAL_rest_no_colon (cs : List Char) (h : (':' : Char) ∉ cs) :
    (':' : Char) ∉ (parseNAL cs).2 :=
  fun hmem => h ((List.dropWhile_sublist _).subset hmem)

theorem lengths_leafcase (cs : List Char) (hnc : (':' : Char) ∉ cs) :
    (∀ n ∈ allNodes (mkLeafNode (parseNAL cs).1.1 (parseNAL cs).1.2), lengthSpec n)
    ∧ (':' : Char) ∉ (parseNAL cs).2 := by
  refine ⟨fun n hn => ?_, parseNAL_rest_no_colon cs hnc⟩
  rw [show mkLeafNode (parseNAL cs).1.1 (parseNAL cs).1.2 =
      JsTree.leaf ((parseNAL cs).1.1.getD "internal") 0 from by
    unfold mkLeafNode; rw [parseNAL_no_colon cs hnc]] at hn
  rw [allNodes] at hn
  rcases List.mem_cons.mp hn with h1 | h1
  · subst h1; exact rfl
  · cases h1

theorem parse_no_colon_lengths (f : ℕ) :
    (∀ (cs : List Char) (t : JsTree) (r : List Char), (':' : Char) ∉ cs →
        parseSub f cs = some (t, r) →
          ((∀ n ∈ allNodes t, lengthSpec n) ∧ (':' : Char) ∉ r))
    ∧ (∀ (cs : List Char) (ts : List JsTree) (r : List Char), (':' : Char) ∉ cs →
        parseChildren f cs = some (ts, r) →
          ((∀ n ∈ allNodesF ts, lengthSpec n) ∧ (':' : Char) ∉ r)) := by
  induction f with
  | zero =>
    constructor
    · intro cs t r _ h; cases h
    · intro cs ts r _ h; cases h
  | succ g ih =>
    constructor
    · intro cs t r hnc h
      rcases cs with _ | ⟨c, rest⟩
      · rw [parseSub.eq_3 _ _ (fun rest2 heq => List.noConfusion heq)] at h
        cases h
        exact lengths_leafcase [] hnc
      · by_cases hc : c = '('
        · subst hc
          rw [parseSub.eq_2] at h
          cases hpc : parseChildren g rest with
          | none => rw [hpc] at h; cases h
          | some cr =>
            rw [hpc] at h
            simp only [Option.bind] at h
            cases cr with
            | mk ts1 r1 =>
              have hrest : (':' : Char) ∉ rest := fun hm => hnc (List.mem_cons_of_mem _ hm)
              have hq := ih.2 rest ts1 r1 hrest hpc
              have hlen := parseNAL_no_colon r1 hq.2
              have hr2 := parseNAL_rest_no_colon r1 hq.2
              cases h
              constructor
              · intro n hn
                rw [show mkGroupNode ts1 (parseNAL r1).1.1 (parseNAL r1).1.2 =
                    JsTree.group ts1 (parseNAL r1).1.1 none from by
                  unfold mkGroupNode; rw [hlen]; simp] at hn
                rw [allNodes] at hn
                rcases List.mem_cons.mp hn with h1 | h1
                · subst h1; exact rfl
                · exact hq.1 n h1
              · exact hr2
        · rw [parseSub.eq_3 _ _ (fun rest2 heq => by
            injection heq with h1 _
            exact hc h1)] at h
          cases h
          exact lengths_leafcase (c :: rest) hnc
    · intro cs ts r hnc h
      rw [parseChildren.eq_2] at h
      split at h
      · cases h
        exact ⟨fun n hn => absurd hn (by simp [allNodesF]),
          fun hm => hnc (List.mem_of_mem_tail hm)⟩
      · cases hps : parseSub g cs with
        | none => rw [hps] at h; cases h
        | some tr =>
          rw [hps] at h
          simp only [Option.bind] at h
          cases tr with
          | mk t1 r1 =>
            have hp := ih.1 cs t1 r1 hnc hps
            have hcs2 : (':' : Char) ∉ (if r1.head? = some ',' then r1.tail else r1) := by
              split
              · exact fun hm => hp.2 (List.mem_of_mem_tail hm)
              · exact hp.2
            cases hpc : parseChildren g (if r1.head? = some ',' then r1.tail else r1) with
            | none => rw [hpc] at h; cases h
            | some cr =>
              rw [hpc] at h
              cases cr with
              | mk ts2 r2 =>
                have hq := ih.2 _ ts2 r2 hcs2 hpc
                simp only [Option.map_some'] at h
                cases h
                constructor
                · intro n hn
                  rw [allNodesF] at hn
                  rcases List.mem_append.mp hn with h1 | h1
                  · exact hp.1 n h1
                  · exact hq.1 n h1
                · exact hq.2

/-- C8 counterexample: parsing `"(A,B)C;"` gives leaves with length 0 but a
root whose length field is absent (`none`), not equal to 0 — `if (length)`
drops a zero length on grouping nodes. -/
theorem c8_root_length_absent :
    parseNewickF 10 "(A,B)C;" =
      some (JsTree.group [JsTree.leaf "A" 0, JsTree.leaf "B" 0] (some "C") none)
    ∧ jsLength (JsTree.group [JsTree.leaf "A" 0, JsTree.leaf "B" 0] (some "C") none)
        ≠ some 0 := by
  constructor
  · with_unfolding_all rfl
  · simp [jsLength]

/-- C8 (amended): on an input with no `:` separators every parsed
leaf-shaped node has branch length 0 (the `parseFloat(...) || 0` default),
while every grouping node — the root included — omits its length field
(`undefined`) rather than storing the defaulted 0;
concretely for `"(A,B)C;"`. -/
theorem c8_branch_length_default :
    (∀ (s : String) (fuel : ℕ) (t : JsTree),
        (':' : Char) ∉ s.data → parseNewickF fuel s = some t →
          ∀ n ∈ allNodes t, lengthSpec n)
    ∧ parseNewickF 10 "(A,B)C;" =
        some (JsTree.group [JsTree.leaf "A" 0, JsTree.leaf "B" 0] (some "C") none) := by
  constructor
  · intro s fuel t hnc h
    unfold parseNewickF at h
    cases hps : parseSub fuel s.data with
    | none => rw [hps] at h; cases h
    | some tr =>
      rw [hps] at h
      cases tr with
      | mk t1 r1 =>
        simp only [Option.map_some'] at h
        cases h
        exact ((parse_no_colon_lengths fuel).1 s.data _ r1 hnc hps).1
  · with_unfolding_all rfl

theorem aggForest_eq_map : ∀ l : List ColorTree, aggForest l = l.map aggTree
  | [] => rfl
  | t :: ts => by rw [aggForest, List.map_cons, aggForest_eq_map ts]

mutual
theorem agg_shared : ∀ (ct : ColorTree) (c : String),
    (∀ k ∈ leavesColors ct, k = c) → colorOf (aggTree ct) = c
  | .cnode col [], c, h => by
    have h1 : col = c := h col (by rw [leavesColors]; exact List.mem_singleton_self col)
    rw [aggTree, colorOf, h1]
  | .cnode col (c0 :: cs), c, h => by
    have hleaves : ∀ k ∈ leavesColorsF (c0 :: cs), k = c := by
      intro k hk
      exact h k (by rw [leavesColors]; exact hk)
    have h0 : colorOf (aggTree c0) = c := by
      apply agg_shared c0 c
      intro k hk
      exact hleaves k (by rw [leavesColorsF]; exact List.mem_append_left _ hk)
    have hf : ∀ d ∈ aggForest cs, colorOf d = c := by
      apply agg_sharedF cs c
      intro k hk
      exact hleaves k (by rw [leavesColorsF]; exact List.mem_append_right _ hk)
    rw [aggTree, colorOf]
    have hall : (aggForest cs).all (fun t => colorOf t = colorOf (aggTree c0)) = true := by
      rw [List.all_eq_true]
      intro d hd
      rw [decide_eq_true_eq, hf d hd, h0]
    rw [if_pos hall]
    exact h0
theorem agg_sharedF : ∀ (l : List ColorTree) (c : String),
    (∀ k ∈ leavesColorsF l, k = c) → ∀ d ∈ aggForest l, colorOf d = c
  | [], _, _, d, hd => absurd hd (by rw [aggForest]; exact List.not_mem_nil d)
  | t :: ts, c, h, d, hd => by
    rw [aggForest] at hd
    rcases List.mem_cons.mp hd with h1 | h1
    · subst h1
      apply agg_shared t c
      intro k hk
      exact h k (by rw [leavesColorsF]; exact List.mem_append_left _ hk)
    · apply agg_sharedF ts c ?_ d h1
      intro k hk
      exact h k (by rw [leavesColorsF]; exact List.mem_append_right _ hk)
end

/-- C2 counterexample: with the categorical colour descriptor `c` of domain
`["x"]` (as the classifier computes it from the two records), the tree
`(A,B);` and records joining both leaves, leaf `B`'s value is the missing
marker `"NA"` — yet its colour is the implicitly assigned palette colour
`"#f28e2c"`, not the neutral `"#ccc"` the claim requires (the ordinal scale
registers unknown values instead of falling back to the default). -/
theorem c2_missing_value_not_neutral :
    analyzeColumn [recX, recNA] "c" = infoX
    ∧ parseNewickF 10 "(A,B);" = some treeAB
    ∧ leavesColors (drawTreeColors [recX, recNA] (some infoX) "c" treeAB)
        = ["#4e79a7", "#f28e2c"]
    ∧ colorOf (drawTreeColors [recX, recNA] (some infoX) "c" treeAB) = "#ccc"
    ∧ ("#f28e2c" : String) ≠ "#ccc" := by
  refine ⟨by with_unfolding_all decide, by with_unfolding_all rfl,
    by with_unfolding_all decide, by with_unfolding_all decide, by decide⟩

/-- C2 (amended): the colour assignment satisfies: a leaf with no matching
record is neutral `"#ccc"`; a matched leaf under a categorical colour
descriptor is coloured by the stateful ordinal scale applied to the record's
value — a value registered at index `i` keeps the palette colour `i % 10`
and leaves the scale unchanged, while an unregistered value (a missing value
included) is appended and gets the next palette colour, NOT the neutral
colour; an internal node (root included) takes its children's shared colour
when every child's colour is identical and `"#ccc"` otherwise, and a clade
whose leaf colours all agree propagates that colour to its root.  The two
concrete instances show a mixed root over leaf colours
`["#4e79a7", "#f28e2c"]` and a shared root over `["#4e79a7", "#4e79a7"]`. -/
theorem c2_colour_assignment :
    (∀ (recs : List Record) (cInfo : Option DInfo) (cDesc : String)
        (nm : Option String) (dom : ScaleDom),
        recs.find? (fun r => r.accession = nm) = none →
          (leafPaint recs cInfo cDesc nm dom).1 = "#ccc")
    ∧ (∀ (recs : List Record) (info : DInfo) (cDesc : String)
        (nm : Option String) (dom : ScaleDom) (r : Record),
        recs.find? (fun r => r.accession = nm) = some r →
          info.dtype = DType.categorical →
          leafPaint recs (some info) cDesc nm dom =
            scaleLookup dom (r.descriptors.lookup cDesc))
    ∧ (∀ (dom : ScaleDom) (k : Option Value) (i : ℕ),
        dom.findIdx? (fun x => x = k) = some i →
          scaleLookup dom k = (palette.getD (i % 10) "", dom))
    ∧ (∀ (dom : ScaleDom) (k : Option Value),
        dom.findIdx? (fun x => x = k) = none →
          scaleLookup dom k = (palette.getD (dom.length % 10) "", dom ++ [k]))
    ∧ (∀ (col : String) (c0 : ColorTree) (cs : List ColorTree),
        ((∀ d ∈ c0 :: cs, colorOf (aggTree d) = colorOf (aggTree c0)) →
            colorOf (aggTree (ColorTree.cnode col (c0 :: cs))) = colorOf (aggTree c0))
        ∧ ((∃ d ∈ c0 :: cs, colorOf (aggTree d) ≠ colorOf (aggTree c0)) →
            colorOf (aggTree (ColorTree.cnode col (c0 :: cs))) = "#ccc"))
    ∧ (∀ (ct : ColorTree) (c : String),
        (∀ k ∈ leavesColors ct, k = c) → colorOf (aggTree ct) = c)
    ∧ (leavesColors (drawTreeColors [recX, recNA] (some infoX) "c" treeAB)
          = ["#4e79a7", "#f28e2c"]
        ∧ colorOf (drawTreeColors [recX, recNA] (some infoX) "c" treeAB) = "#ccc")
    ∧ (leavesColors (drawTreeColors [recX, recX2] (some infoX) "c" treeAB)
          = ["#4e79a7", "#4e79a7"]
        ∧ colorOf (drawTreeColors [recX, recX2] (some infoX) "c" treeAB)
          = "#4e79a7") := by
  refine ⟨?_, ?_, ?_, ?_, ?_, agg_shared,
    ⟨by with_unfolding_all decide, by with_unfolding_all decide⟩,
    ⟨by with_unfolding_all decide, by with_unfolding_all decide⟩⟩
  · intro recs cInfo cDesc nm dom h
    unfold leafPaint
    rw [h]
  · intro recs info cDesc nm dom r hfind hcat
    unfold leafPaint
    rw [hfind]
    simp only [hcat, if_pos]
  · intro dom k i h
    unfold scaleLookup
    rw [h]
  · intro dom k h
    unfold scaleLookup
    rw [h]
  · intro col c0 cs
    have hagg : aggTree (ColorTree.cnode col (c0 :: cs)) =
        ColorTree.cnode
          (if (aggForest cs).all (fun t => colorOf t = colorOf (aggTree c0))
            then colorOf (aggTree c0) else "#ccc")
          (aggTree c0 :: aggForest cs) := by
      rw [aggTree]
    constructor
    · intro hall
      rw [hagg, colorOf, if_pos ?_]
      rw [List.all_eq_true]
      intro d hd
      rw [aggForest_eq_map] at hd
      rcases List.mem_map.mp hd with ⟨d0, hd0, hde⟩
      rw [decide_eq_true_eq, ← hde]
      exact hall d0 (List.mem_cons_of_mem _ hd0)
    · intro ⟨d, hd, hne⟩
      rcases List.mem_cons.mp hd with h1 | h1
      · exact absurd (h1 ▸ rfl) hne
      · rw [hagg, colorOf, if_neg ?_]
        rw [List.all_eq_true]
        intro hall
        apply hne
        have := hall (aggTree d) (by
          rw [aggForest_eq_map]
          exact List.mem_map_of_mem aggTree h1)
        rw [decide_eq_true_eq] at this
        exact this
